import Mathlib

/-!
# Verification of the Document QA pipeline

A shallow embedding of the core of the Document_QA_Agent repository
(`document_processor.py`, `vector_store.py`, `query_processor.py`) together
with theorems settling the specification claims about chunking, retrieval
degradation, deletion, query classification, brevity detection and response
sanitization.

Text is modelled as `List Char` (Python `str` over the ASCII range that the
code manipulates).  Python regular-expression operations are embedded as
executable scanning functions that implement exactly the documented
leftmost, non-overlapping search semantics of the concrete patterns used by
the source (`.` never matches a newline; `re.sub` scans the original string
left to right).
-/

set_option maxRecDepth 10000

namespace DocQA

/-! ## Basic character and string helpers (Python `str` methods) -/

/-- Whitespace for Python `str.strip` / `str.split` and the regex class `\s`,
restricted to the ASCII range handled by the repository. -/
def isPySpace (c : Char) : Bool :=
  c = ' ' || c = '\t' || c = '\n' || c = '\r' || c = '\x0b' || c = '\x0c'

/-- ASCII lower-casing of one character, as Python `str.lower` acts on the
ASCII range. -/
def lowerChar (c : Char) : Char :=
  if 'A' ≤ c ∧ c ≤ 'Z' then Char.ofNat (c.toNat + 32) else c

/-- ASCII upper-casing of one character, as Python `str.upper` acts on the
ASCII range. -/
def upperChar (c : Char) : Char :=
  if 'a' ≤ c ∧ c ≤ 'z' then Char.ofNat (c.toNat - 32) else c

/-- Python `text.lower()`. -/
def lowerStr (s : List Char) : List Char := s.map lowerChar

/-- Python `line.strip()`: drop leading and trailing whitespace. -/
def stripChars (s : List Char) : List Char :=
  ((s.dropWhile isPySpace).reverse.dropWhile isPySpace).reverse

/-- Python `text.split('\n')`.  In particular `splitNl [] = [[]]`, matching
`''.split('\n') == ['']`. -/
def splitNl : List Char → List (List Char)
  | [] => [[]]
  | c :: rest =>
    if c = '\n' then [] :: splitNl rest
    else
      match splitNl rest with
      | [] => [[c]]
      | l :: ls => (c :: l) :: ls

/-- Python `'\n'.join(lines)`. -/
def joinNl : List (List Char) → List Char
  | [] => []
  | [l] => l
  | l :: ls => l ++ '\n' :: joinNl ls

/-- Python substring test `needle in hay`. -/
def containsSub (needle hay : List Char) : Bool :=
  hay.tails.any fun t => needle.isPrefixOf t

/-! ## `document_processor.py`: mathematical patterns

`DocumentProcessor.mathematical_patterns` is the list
`[r'\\[(\w+)|[^]]+]', r'\$[^$]+\$', r'\$\$[^$]+\$\$', r'\\begin\{[^}]+\}']`
and `_is_technical_content` applies `re.search` with each of them.  Each
matcher below decides whether the corresponding pattern matches *at the
start* of a list of characters; `re.search` (a match anywhere) is then the
disjunction over `List.tails`. -/

/-- The character class `[(\w+)|[^]` occurring inside the first pattern
(Python parses `r'\\[(\w+)|[^]]+]'` as: a literal backslash, one character
of the class `{( ) + | [ ^} ∪ \w`, then `]+` and a final literal `]`,
because the first unescaped `]` closes the class). -/
def isClassChar (c : Char) : Bool :=
  c = '(' || c = ')' || c = '+' || c = '|' || c = '[' || c = '^' ||
  ('a' ≤ c && c ≤ 'z') || ('A' ≤ c && c ≤ 'Z') || ('0' ≤ c && c ≤ '9') || c = '_'

/-- Match of `r'\\[(\w+)|[^]]+]'` at the start: a backslash, a class
character, then at least two `]` (backtracking resolves `]+]` to two
consecutive `]`). -/
def pat1At : List Char → Bool
  | c₀ :: c₁ :: rest => c₀ = '\\' && isClassChar c₁ && [']', ']'].isPrefixOf rest
  | _ => false

/-- After the opening `$` of `r'\$[^$]+\$'`: the next character must not be
`$`, then we scan for a closing `$`. -/
def pat2Close : List Char → Bool
  | [] => false
  | c :: rest => if c = '$' then true else pat2Close rest

def pat2Mid : List Char → Bool
  | [] => false
  | c :: rest => if c = '$' then false else pat2Close rest

/-- Match of `r'\$[^$]+\$'` at the start. -/
def pat2At : List Char → Bool
  | c :: rest => c = '$' && pat2Mid rest
  | _ => false

/-- Helpers for `r'\$\$[^$]+\$\$'`: after the middle `[^$]+`, the first `$`
encountered must be immediately followed by another `$`. -/
def pat3Dollar : List Char → Bool
  | [] => false
  | c :: _ => c = '$'

def pat3Close : List Char → Bool
  | [] => false
  | c :: rest => if c = '$' then pat3Dollar rest else pat3Close rest

def pat3Mid : List Char → Bool
  | [] => false
  | c :: rest => if c = '$' then false else pat3Close rest

/-- Match of `r'\$\$[^$]+\$\$'` at the start. -/
def pat3At : List Char → Bool
  | c₀ :: c₁ :: rest => c₀ = '$' && c₁ = '$' && pat3Mid rest
  | _ => false

/-- Helpers for `r'\\begin\{[^}]+\}'`: after `\begin{`, at least one
non-`}` character, then a `}`. -/
def begClose : List Char → Bool
  | [] => false
  | c :: rest => if c = '\x7d' then true else begClose rest

def begMid : List Char → Bool
  | [] => false
  | c :: rest => if c = '\x7d' then false else begClose rest

/-- Match of `r'\\begin\{[^}]+\}'` at the start. -/
def begAt (l : List Char) : Bool :=
  if ("\\begin".data ++ ['\x7b']).isPrefixOf l then begMid (l.drop 7) else false

/-- `re.search` for one of the four mathematical patterns: a match at some
position, i.e. at the start of some tail. -/
def hasMathAt (matchAt : List Char → Bool) (s : List Char) : Bool :=
  s.tails.any matchAt

/-- The fixed technical vocabulary of `_is_technical_content`. -/
def technicalIndicators : List (List Char) :=
  ["definition".data, "theorem".data, "lemma".data, "corollary".data,
   "proof".data, "proposition".data, "equation".data, "formula".data,
   "matrix".data, "vector".data, "function".data, "derivative".data,
   "integral".data, "algorithm".data, "complexity".data]

/-- `DocumentProcessor._is_technical_content`: a mathematical-notation match
or a technical term inside the lower-cased text. -/
def isTechnicalContent (s : List Char) : Bool :=
  (hasMathAt pat1At s || hasMathAt pat2At s || hasMathAt pat3At s ||
    hasMathAt begAt s) ||
  technicalIndicators.any fun term => containsSub term (lowerStr s)

/-! ## `document_processor.py`: the chunker -/

/-- The `Chunk` dictionary produced by `DocumentProcessor._create_chunk`. -/
structure Chunk where
  content : List Char
  page : Nat
  source : String
  is_technical : Bool
  deriving DecidableEq, Repr

/-- `DocumentProcessor._create_chunk`: join the buffered lines with `'\n'`
and re-evaluate the technical detector over the joined content.  The `page`
field is `page_num + 1`. -/
def mkChunk (lines : List (List Char)) (pageNum : Nat) (source : String) : Chunk :=
  { content := joinNl lines
    page := pageNum + 1
    source := source
    is_technical := isTechnicalContent (joinNl lines) }

/-- The running `current_length` of `_process_technical_text`: it is reset
to `len(line)` whenever a fresh buffer `[line]` is started and incremented
by `len(line)` on append, hence always equals the sum of the buffered line
lengths. -/
def bufLen (buf : List (List Char)) : Nat := (buf.map List.length).sum

/-- The per-line accumulation loop of
`DocumentProcessor._process_technical_text`: strip each line, skip empty
lines, flush the buffer before a technical line, flush when a line would
push the buffer past 1200 characters, otherwise append; flush the final
buffer if non-empty. -/
def processLines (pageNum : Nat) (source : String) :
    List (List Char) → List (List Char) → List Chunk
  | [], buf => if buf = [] then [] else [mkChunk buf pageNum source]
  | rawLine :: rest, buf =>
    let line := stripChars rawLine
    if line = [] then processLines pageNum source rest buf
    else if isTechnicalContent line = true ∧ buf ≠ [] then
      mkChunk buf pageNum source :: processLines pageNum source rest [line]
    else if bufLen buf + line.length > 1200 then
      (if buf = [] then [] else [mkChunk buf pageNum source]) ++
        processLines pageNum source rest [line]
    else
      processLines pageNum source rest (buf ++ [line])

/-- `DocumentProcessor._process_technical_text` on one page of extracted
text. -/
def processTechnicalText (text : List Char) (pageNum : Nat) (source : String) :
    List Chunk :=
  processLines pageNum source (splitNl text) []

/-- The stripped non-empty lines of a page, in order: exactly the lines the
accumulation loop of `_process_technical_text` distributes into chunks. -/
def filteredLines (lines : List (List Char)) : List (List Char) :=
  (lines.map stripChars).filter fun l => !l.isEmpty

/-- Concatenation of all chunk contents, ignoring chunk boundaries (the
chunk-internal line separator `'\n'` is also used between chunks). -/
def joinContents (chunks : List Chunk) : List Char :=
  joinNl (chunks.map (·.content))

/-- Number of characters of a string excluding newline characters: for a
chunk this counts the buffered line characters without the `'\n'`
separators inserted by `'\n'.join`. -/
def countNonNl (s : List Char) : Nat :=
  (s.filter fun c => c != '\n').length

/-- Reading of claim C3's guarantee taken literally: the page text with
lines kept verbatim and only blank (whitespace-only) lines removed.  This
definition follows the claim's words, to be compared with what the chunker
actually reproduces. -/
def specTrimEmptyLines (text : List Char) : List Char :=
  joinNl ((splitNl text).filter fun l => !(stripChars l).isEmpty)

/-! ## `vector_store.py`: Python `str.replace` and `_preprocess_query` -/

/-- Python `hay.replace(needle, repl)`, fuel-indexed so that the scan is
structurally recursive (each step consumes at least one character, so a
fuel of `hay.length` never runs out; the `0` case is unreachable). -/
def replaceAllAux (needle repl : List Char) : Nat → List Char → List Char
  | _, [] => []
  | 0, hay => hay
  | fuel + 1, c :: rest =>
    if needle ≠ [] ∧ needle.isPrefixOf (c :: rest) then
      repl ++ replaceAllAux needle repl fuel (rest.drop (needle.length - 1))
    else c :: replaceAllAux needle repl fuel rest

/-- Python `hay.replace(needle, repl)`: non-overlapping left-to-right
replacement of every occurrence (for a non-empty needle; an empty needle
never occurs in the source). -/
def replaceAll (needle repl : List Char) (hay : List Char) : List Char :=
  replaceAllAux needle repl hay.length hay

/-- The `technical_expansions` table of `VectorStore._preprocess_query`, in
Python dict insertion order. -/
def technicalExpansions : List (String × String) :=
  [("ai", "artificial intelligence"),
   ("ml", "machine learning"),
   ("nlp", "natural language processing"),
   ("cv", "computer vision"),
   ("llm", "large language model"),
   ("framework", "framework methodology approach"),
   ("verification", "verification validation testing"),
   ("bregman", "bregman divergence loss function"),
   ("squared", "squared error loss function")]

/-- `VectorStore._preprocess_query`: lower-case the query, then for each
`(short, long)` pair in table order, if `short` occurs, replace every
occurrence of `short` by `short ++ " " ++ long`. -/
def preprocessQuery (q : List Char) : List Char :=
  technicalExpansions.foldl
    (fun acc se =>
      if containsSub se.1.data acc then
        replaceAll se.1.data (se.1.data ++ ' ' :: se.2.data) acc
      else acc)
    (lowerStr q)

/-- The transformation `VectorStore.add_documents` applies to chunk
contents before embedding and storing them: none — `texts =
[doc["content"] for doc in documents]` is used verbatim. -/
def indexTimePreprocess (t : List Char) : List Char := t

/-! ## `vector_store.py`: search, fallback and deletion

ChromaDB is an external collaborator.  Its documented query contract is
modelled as follows: a query returns parallel, equally long lists
`documents` / `metadatas` / `distances`, modelled as a single `rows` list;
`hasDistances` models the truthiness of `results["distances"]` tested by
the repository code.  Whether a call to the collection (or to
`SentenceTransformer.encode`) raises is modelled by explicit
`Except` / `Bool` parameters, since those outcomes are decided by the
external systems. -/

/-- The metadata dictionary `{"page": ..., "source": ...}` stored with each
index entry. -/
structure EntryMeta where
  page : Nat
  source : String
  deriving DecidableEq, Repr

/-- One element of the list returned by `VectorStore.search` /
`search_within_document`. -/
structure Hit where
  content : List Char
  metadata : EntryMeta
  score : ℚ
  deriving DecidableEq, Repr

/-- A ChromaDB query result: rows of (document, metadata, distance), plus
whether the result carries a (truthy) `distances` field. -/
structure ChromaRes where
  rows : List (List Char × EntryMeta × ℚ)
  hasDistances : Bool
  deriving DecidableEq, Repr

/-- The result list built at the end of the `try` block of
`VectorStore.search`: `score = distances[0][i] if distances else 0`. -/
def mkHits (r : ChromaRes) : List Hit :=
  r.rows.map fun t => { content := t.1, metadata := t.2.1, score := if r.hasDistances then t.2.2 else 0 }

/-- `VectorStore._fallback_text_search`: on success every hit carries the
hard-coded `score = 0`; if the fallback query itself raises, the empty
list is returned. -/
def fallbackHits : Except Unit ChromaRes → List Hit
  | .ok r => r.rows.map fun t => { content := t.1, metadata := t.2.1, score := 0 }
  | .error _ => []

/-- `VectorStore.search`. `modelLoaded` is whether `self.embedding_model`
is loaded (`is not None`); `encodeOk` is whether the per-call
`encode` succeeds; `oracle` is the collection query (applied, as in the
source, to the preprocessed query in both the embedding and the
`query_texts` branch); `fb` is the collection query made by
`_fallback_text_search`, which the source applies to the *raw* query.
Any exception inside the `try` block routes to the fallback. -/
def searchModel (modelLoaded encodeOk : Bool) (q : List Char)
    (oracle fb : List Char → Except Unit ChromaRes) : List Hit :=
  if modelLoaded then
    if encodeOk then
      match oracle (preprocessQuery q) with
      | .ok r => mkHits r
      | .error _ => fallbackHits (fb q)
    else fallbackHits (fb q)
  else
    match oracle (preprocessQuery q) with
    | .ok r => mkHits r
    | .error _ => fallbackHits (fb q)

/-- An entry of the ChromaDB collection (id, stored text, and the metadata
fields used by the repository). -/
structure Entry where
  id : String
  text : List Char
  source : String
  page : Nat
  deriving DecidableEq, Repr

/-- Insertion into a list sorted by a ranking function (used to model the
similarity ordering of a ChromaDB query result). -/
def insertRanked (rank : Entry → ℚ) (e : Entry) : List Entry → List Entry
  | [] => [e]
  | x :: xs => if rank e ≤ rank x then e :: x :: xs else x :: insertRanked rank e xs

def sortRanked (rank : Entry → ℚ) (l : List Entry) : List Entry :=
  l.foldr (insertRanked rank) []

/-- A ChromaDB `query(..., where={"source": s}, n_results=n)`: up to `n`
entries matching the metadata filter, ordered by distance (the external
ranking is a parameter), with their distances. -/
def chromaQueryWhere (st : List Entry) (s : String) (n : Nat)
    (rank : Entry → ℚ) : ChromaRes :=
  { rows := ((sortRanked rank (st.filter fun e => e.source == s)).take n).map
      fun e => (e.text, { page := e.page, source := e.source }, rank e)
    hasDistances := true }

/-- `VectorStore._fallback_text_search_within_document`: a `query_texts`
query restricted by the same `where` filter, hits hard-coded to
`score = 0` (the external ordering is irrelevant to the claims proved
about it, so the model keeps collection order). -/
def fallbackTextSearchWithin (st : List Entry) (s : String) (n : Nat) : List Hit :=
  ((st.filter fun e => e.source == s).take n).map
    fun e => { content := e.text, metadata := { page := e.page, source := e.source }, score := 0 }

/-- `VectorStore.search_within_document` over a modelled collection state:
both the embedding branch and the `query_texts` branch query with
`where={"source": source}`; a per-call encode failure routes to the
`where`-filtered fallback. -/
def searchWithinDocument (modelLoaded encodeOk : Bool) (s : String) (n : Nat)
    (st : List Entry) (rank : Entry → ℚ) : List Hit :=
  if modelLoaded then
    if encodeOk then mkHits (chromaQueryWhere st s n rank)
    else fallbackTextSearchWithin st s n
  else mkHits (chromaQueryWhere st s n rank)

/-- `VectorStore.delete_document`: `collection.get(where={"source":
source})` collects the ids of all entries of that source; if the id list
is non-empty they are deleted (`collection.delete(ids=...)` removes the
entries carrying those ids) and `True` is returned, otherwise `False`. -/
def deleteDocument (st : List Entry) (s : String) : List Entry × Bool :=
  let ids := (st.filter fun e => e.source == s).map (·.id)
  if ids.isEmpty then (st, false)
  else (st.filter fun e => !(ids.contains e.id), true)

/-- `VectorStore.add_documents`: the texts handed to the collection are the
chunk contents, verbatim. -/
def addTexts (docs : List Chunk) : List (List Char) :=
  docs.map (·.content)

/-- `VectorStore.add_documents`: the metadata dictionaries. -/
def addMetadatas (docs : List Chunk) : List EntryMeta :=
  docs.map fun d => { page := d.page, source := d.source }

/-- `VectorStore.add_documents`: the ids `f"{document_id}_{i}"`. -/
def addIds (docs : List Chunk) (documentId : String) : List String :=
  (List.range docs.length).map fun i => documentId ++ "_" ++ toString i

/-! ## `query_processor.py`: classification and brevity -/

/-- `QueryProcessor._is_technical_query`'s indicator list (the source lists
`'lemma'` twice; the duplicate is kept). -/
def technicalQueryIndicators : List String :=
  ["divergence", "convex", "differentiable", "generator",
   "mathematical", "theorem", "proof", "lemma", "corollary",
   "framework", "methodology", "algorithm", "formal", "definition",
   "bregman", "loss", "noise", "vector", "distribution", "symmetric",
   "symmetrization", "lemma", "empirical", "process", "analysis",
   "model", "statistical", "probability", "optimization"]

/-- `QueryProcessor._is_complex_query`'s indicator list. -/
def complexQueryIndicators : List String :=
  ["compare", "contrast", "analyze", "discuss", "evaluate",
   "explain", "describe", "what are", "how does", "why does",
   "advantages", "disadvantages", "benefits", "limitations",
   "impact", "effect", "relationship", "difference", "similar"]

/-- `QueryProcessor._is_technical_query`. -/
def isTechnicalQuery (q : List Char) : Bool :=
  technicalQueryIndicators.any fun t => containsSub t.data (lowerStr q)

/-- `QueryProcessor._is_complex_query`. -/
def isComplexQuery (q : List Char) : Bool :=
  complexQueryIndicators.any fun t => containsSub t.data (lowerStr q)

/-- The three query categories. -/
inductive QueryClass where
  | technical
  | complex
  | standard
  deriving DecidableEq, Repr

/-- The classification implicit in the branch order of
`QueryProcessor.process_query`: technical first, then complex, else
standard. -/
def classifyQuery (q : List Char) : QueryClass :=
  if isTechnicalQuery q then .technical
  else if isComplexQuery q then .complex
  else .standard

/-- The scan of Python `s.split()`, fuel-indexed (each step consumes at
least one character, so a fuel of `s.length` never runs out). -/
def wordsOfAux : Nat → List Char → List (List Char)
  | _, [] => []
  | 0, _ => []
  | fuel + 1, c :: rest =>
    if isPySpace c then wordsOfAux fuel rest
    else (c :: rest.takeWhile fun d => !isPySpace d) ::
      wordsOfAux fuel (rest.dropWhile fun d => !isPySpace d)

/-- Python `s.split()` (no separator): maximal runs of non-whitespace. -/
def wordsOf (s : List Char) : List (List Char) := wordsOfAux s.length s

/-- `len(s.split())`. -/
def wordCount (s : List Char) : Nat := (wordsOf s).length

/-- Python `s.split('. ')`: split on the two-character separator,
non-overlapping, left to right. -/
def splitDotSpace : List Char → List (List Char)
  | [] => [[]]
  | [c] => [[c]]
  | c :: d :: rest =>
    if c = '.' ∧ d = ' ' then [] :: splitDotSpace rest
    else
      match splitDotSpace (d :: rest) with
      | [] => [[c]]
      | l :: ls => (c :: l) :: ls

/-- `QueryProcessor._is_response_too_brief`: word count below
`max(100, 3 × query words)`, or a suffix among `'...'`, `'etc.'`, `'etc'`,
or fewer than three `'. '`-separated segments. -/
def isResponseTooBrief (response query : List Char) : Bool :=
  let isBrief := wordCount response < max 100 (wordCount query * 3)
  let seemsIncomplete :=
    (("...").data.isSuffixOf response || ("etc.").data.isSuffixOf response ||
      ("etc").data.isSuffixOf response) ||
    decide ((splitDotSpace response).length < 3)
  isBrief || seemsIncomplete

/-- Sentence-ending punctuation. -/
def isSentEnd (c : Char) : Bool := c = '.' || c = '!' || c = '?'

/-- Number of sentence-ending punctuation characters, used to read claim
C6's phrase "fewer than three sentences" literally. -/
def sentEnderCount (s : List Char) : Nat := (s.filter isSentEnd).length

/-- Claim C6's brevity condition read literally: word count below
`max(100, 3 × query words)`, or the answer ends with an ellipsis or
`"etc."`, or it has fewer than three sentences (counted by their ending
punctuation).  This follows the claim's words, for comparison with
`isResponseTooBrief`. -/
def claimTooBrief (response query : List Char) : Bool :=
  wordCount response < max 100 (wordCount query * 3) ||
  ("...").data.isSuffixOf response || ("etc.").data.isSuffixOf response ||
  decide (sentEnderCount response < 3)

/-! ## `query_processor.py`: the response sanitizer

`_remove_special_tokens`, `_clean_mathematical_content` and
`_ensure_proper_formatting` are built from `re.sub` / `re.split` with the
concrete patterns of the source.  Each is embedded operationally with the
same leftmost, non-overlapping semantics; `.` never matches `'\n'`. -/

/-- Scan for a single closing character (the lazy `.*?c`): index of the
first occurrence of `b`, failing at the end or at a newline (which `.`
cannot consume). -/
def findCloserIdx (b : Char) : List Char → Option Nat
  | [] => none
  | c :: rest =>
    if c = '\n' then none
    else if c = b then some 0
    else (findCloserIdx b rest).map (· + 1)

/-- Scan for a two-character closer `ab` (for `<\|.*?\|>` and
`\{\{.*?\}\}`): index of the second character of the first closing pair
reachable without crossing a newline. -/
def findCloser2Idx (a b : Char) : List Char → Option Nat
  | [] => none
  | c :: rest =>
    if c = '\n' then none
    else if c = a ∧ rest.head? = some b then some 1
    else (findCloser2Idx a b rest).map (· + 1)

/-- The scan of `re.sub` for a one-character-delimited lazy pattern such as
`\[.*?\]` or `\(.*?\)`, fuel-indexed (each step consumes at least one
character of the input, so a fuel of its length never runs out): at each
opener, delete through the first closer on the same line, else keep the
opener. -/
def subPairAux (o c : Char) : Nat → List Char → List Char
  | _, [] => []
  | 0, hay => hay
  | fuel + 1, x :: rest =>
    if x = o then
      match findCloserIdx c rest with
      | some j => subPairAux o c fuel (rest.drop (j + 1))
      | none => x :: subPairAux o c fuel rest
    else x :: subPairAux o c fuel rest

/-- `re.sub(r'\[.*?\]', '', s)` and `re.sub(r'\(.*?\)', '', s)`. -/
def subPair (o c : Char) (s : List Char) : List Char := subPairAux o c s.length s

/-- The scan of `re.sub` for a pattern with two-character delimiters, such
as `<\|.*?\|>` (openers `<`, `|`; closers `|`, `>`) and `\{\{.*?\}\}`,
fuel-indexed as in `subPairAux`. -/
def subTok2Aux (o₁ o₂ a b : Char) : Nat → List Char → List Char
  | _, [] => []
  | _, [x] => [x]
  | 0, hay => hay
  | fuel + 1, x :: y :: rest =>
    if x = o₁ ∧ y = o₂ then
      match findCloser2Idx a b rest with
      | some j => subTok2Aux o₁ o₂ a b fuel (rest.drop (j + 1))
      | none => x :: subTok2Aux o₁ o₂ a b fuel (y :: rest)
    else x :: subTok2Aux o₁ o₂ a b fuel (y :: rest)

/-- `re.sub` for `<\|.*?\|>` and `\{\{.*?\}\}`. -/
def subTok2 (o₁ o₂ a b : Char) (s : List Char) : List Char :=
  subTok2Aux o₁ o₂ a b s.length s

def isAsciiLetter (c : Char) : Bool :=
  ('a' ≤ c && c ≤ 'z') || ('A' ≤ c && c ≤ 'Z')

/-- The scan of `re.sub` for `r'\\[a-zA-Z]+\{.*?\}'`, fuel-indexed as in
`subPairAux`: a backslash, a maximal non-empty run of letters, a `{`, then
lazily through the first `}` on the same line. -/
def subLatexAux : Nat → List Char → List Char
  | _, [] => []
  | 0, hay => hay
  | fuel + 1, x :: rest =>
    if x = '\\' ∧ rest.takeWhile isAsciiLetter ≠ [] ∧
        (rest.dropWhile isAsciiLetter).head? = some '\x7b' then
      match findCloserIdx '\x7d' ((rest.dropWhile isAsciiLetter).drop 1) with
      | some j => subLatexAux fuel (((rest.dropWhile isAsciiLetter).drop 1).drop (j + 1))
      | none => x :: subLatexAux fuel rest
    else x :: subLatexAux fuel rest

/-- `re.sub(r'\\[a-zA-Z]+\{.*?\}', '', s)`. -/
def subLatex (s : List Char) : List Char := subLatexAux s.length s

/-- The `artifacts` list of `_remove_special_tokens`. -/
def artifactNames : List String :=
  ["header_start", "endoftext", "endofsequence", "startoftext",
   "pad", "unk", "sep", "cls", "mask"]

/-- The literal `str.replace` loop of `_remove_special_tokens`: for each
artifact `a`, replace `<|a|>`, `[a]` and `(a)` by the empty string. -/
def stripArtifacts (s : List Char) : List Char :=
  artifactNames.foldl
    (fun acc a =>
      replaceAll ('(' :: a.data ++ [')']) []
        (replaceAll ('[' :: a.data ++ [']']) []
          (replaceAll ('<' :: '|' :: a.data ++ ['|', '>']) [] acc)))
    s

/-- `QueryProcessor._remove_special_tokens`: the five `re.sub` pattern
removals in source order (`<\|.*?\|>`, `\[.*?\]`, `\(.*?\)`,
`\{\{.*?\}\}`, `\\[a-zA-Z]+\{.*?\}`), then the artifact replacements,
then `str.strip`. -/
def removeSpecialTokens (s : List Char) : List Char :=
  stripChars (stripArtifacts (subLatex
    (subTok2 '\x7b' '\x7b' '\x7d' '\x7d'
      (subPair '(' ')' (subPair '[' ']' (subTok2 '<' '|' '|' '>' s))))))

/-- The delimiter fixes of `_clean_mathematical_content`
(`\\\( → $`, `\\\) → $`, `\\\[ → $$`, `\\\] → $$`), all literal
replacements. -/
def mathDelimiterFixes : List (List Char × List Char) :=
  [("\\(".data, "$".data), ("\\)".data, "$".data),
   ("\\[".data, "$$".data), ("\\]".data, "$$".data)]

/-- The `math_replacements` table of `_clean_mathematical_content`, in
Python dict insertion order; every pattern is a literal string. -/
def mathReplacements : List (List Char × List Char) :=
  [("\\times".data, "×".data), ("\\cdot".data, "·".data),
   ("\\infty".data, "∞".data), ("\\sum".data, "∑".data),
   ("\\prod".data, "∏".data), ("\\int".data, "∫".data),
   ("\\partial".data, "∂".data), ("\\nabla".data, "∇".data),
   ("\\alpha".data, "α".data), ("\\beta".data, "β".data),
   ("\\gamma".data, "γ".data), ("\\theta".data, "θ".data),
   ("\\lambda".data, "λ".data), ("\\mu".data, "μ".data),
   ("\\sigma".data, "σ".data), ("\\phi".data, "φ".data),
   ("\\psi".data, "ψ".data), ("\\omega".data, "ω".data)]

/-- `QueryProcessor._clean_mathematical_content`. -/
def cleanMathematicalContent (s : List Char) : List Char :=
  (mathDelimiterFixes ++ mathReplacements).foldl
    (fun acc nr => replaceAll nr.1 nr.2 acc) s

/-- The regex class `\w`, over the ASCII range handled by the code. -/
def isWordChar (c : Char) : Bool :=
  ('a' ≤ c && c ≤ 'z') || ('A' ≤ c && c ≤ 'Z') || ('0' ≤ c && c ≤ '9') || c = '_'

/-- No word character follows (the `\b` after the back-reference in
`r'\b(\w+)\s+\1\b'`). -/
def noWordAhead (l : List Char) : Bool :=
  match l.head? with
  | none => true
  | some d => !isWordChar d

/-- The scan of `re.sub(r'\b(\w+)\s+\1\b', r'\1', s)`, fuel-indexed as in
`subPairAux`: at each word start, take the maximal word `w`; if it is
followed by whitespace and then `w` again at a word boundary, emit `w`
once and continue after the second copy. -/
def dupCollapseAux : Nat → List Char → List Char
  | _, [] => []
  | 0, hay => hay
  | fuel + 1, c :: rest =>
    if isWordChar c then
      let w := c :: rest.takeWhile isWordChar
      let rest₁ := rest.dropWhile isWordChar
      let rest₂ := rest₁.dropWhile isPySpace
      if rest₁.takeWhile isPySpace ≠ [] ∧ w.isPrefixOf rest₂ ∧
          noWordAhead (rest₂.drop w.length) then
        w ++ dupCollapseAux fuel (rest₂.drop w.length)
      else w ++ dupCollapseAux fuel rest₁
    else c :: dupCollapseAux fuel rest

/-- `re.sub(r'\b(\w+)\s+\1\b', r'\1', s)`. -/
def dupCollapse (s : List Char) : List Char := dupCollapseAux s.length s

/-- The punctuation class `[.,!?;:]`. -/
def isPunct (c : Char) : Bool :=
  c = '.' || c = ',' || c = '!' || c = '?' || c = ';' || c = ':'

/-- The scan of `re.sub(r'\s+([.,!?;:])', r'\1', s)`, fuel-indexed as in
`subPairAux`: delete whitespace runs that precede a punctuation
character. -/
def stripSpaceBeforePunctAux : Nat → List Char → List Char
  | _, [] => []
  | 0, hay => hay
  | fuel + 1, c :: rest =>
    if isPySpace c then
      match rest.dropWhile isPySpace with
      | p :: rest₂ =>
        if isPunct p then p :: stripSpaceBeforePunctAux fuel rest₂
        else c :: stripSpaceBeforePunctAux fuel rest
      | [] => c :: stripSpaceBeforePunctAux fuel rest
    else c :: stripSpaceBeforePunctAux fuel rest

/-- `re.sub(r'\s+([.,!?;:])', r'\1', s)`. -/
def stripSpaceBeforePunct (s : List Char) : List Char :=
  stripSpaceBeforePunctAux s.length s

/-- `re.sub(r'([.,!?;:])(\w)', r'\1 \2', s)`: insert a space between a
punctuation character and an immediately following word character. -/
def spaceAfterPunct : List Char → List Char
  | [] => []
  | [c] => [c]
  | c :: d :: rest =>
    if isPunct c ∧ isWordChar d then c :: ' ' :: d :: spaceAfterPunct rest
    else c :: spaceAfterPunct (d :: rest)

/-- The scan of `re.sub(r'\s+', ' ', s)`, fuel-indexed as in `subPairAux`:
collapse each whitespace run to one space. -/
def collapseWsAux : Nat → List Char → List Char
  | _, [] => []
  | 0, hay => hay
  | fuel + 1, c :: rest =>
    if isPySpace c then ' ' :: collapseWsAux fuel (rest.dropWhile isPySpace)
    else c :: collapseWsAux fuel rest

/-- `re.sub(r'\s+', ' ', s)`. -/
def collapseWs (s : List Char) : List Char := collapseWsAux s.length s

/-- The scan of `re.split(r'([.!?])\s+', s)`, fuel-indexed as in
`subPairAux`: pieces alternate with the captured one-character separators;
the greedy `\s+` after a separator is dropped. -/
def splitSentAux : Nat → List Char → List (List Char)
  | _, [] => [[]]
  | 0, _ => [[]]
  | fuel + 1, c :: rest =>
    if isSentEnd c ∧ (match rest.head? with | some d => isPySpace d | none => false) = true then
      [] :: [c] :: splitSentAux fuel (rest.dropWhile isPySpace)
    else
      match splitSentAux fuel rest with
      | [] => [[c]]
      | l :: ls => (c :: l) :: ls

/-- `re.split(r'([.!?])\s+', s)`. -/
def splitSent (s : List Char) : List (List Char) := splitSentAux s.length s

/-- `sentence[0].upper() + sentence[1:]`. -/
def capitalizeFirst : List Char → List Char
  | [] => []
  | c :: rest => upperChar c :: rest

/-- The reassembly loop of `_ensure_proper_formatting`: every even-indexed
piece of length at least 2 is appended with its first letter capitalized
(shorter pieces are dropped), and every captured separator is appended
followed by a space. -/
def rebuildSent : List (List Char) → List Char
  | [] => []
  | [p] => if p.length > 1 then capitalizeFirst p else []
  | p :: sep :: rest =>
    (if p.length > 1 then capitalizeFirst p else []) ++ sep ++ ' ' :: rebuildSent rest

/-- The regex class `[a-zA-Z0-9"]` kept by the leading trim. -/
def isLeadKeep (c : Char) : Bool :=
  ('a' ≤ c && c ≤ 'z') || ('A' ≤ c && c ≤ 'Z') || ('0' ≤ c && c ≤ '9') || c = '"'

/-- The regex class `[a-zA-Z0-9".!?]` kept by the trailing trim. -/
def isTrailKeep (c : Char) : Bool :=
  isLeadKeep c || c = '.' || c = '!' || c = '?'

/-- `QueryProcessor._ensure_proper_formatting`. -/
def ensureProperFormatting (s : List Char) : List Char :=
  let s₁ := dupCollapse s
  let s₂ := stripSpaceBeforePunct s₁
  let s₃ := spaceAfterPunct s₂
  let s₄ := collapseWs s₃
  let s₅ := stripChars (rebuildSent (splitSent s₄))
  let s₆ := s₅.dropWhile fun c => !isLeadKeep c
  (s₆.reverse.dropWhile fun c => !isTrailKeep c).reverse

/-- `QueryProcessor._format_response`: token stripping, then mathematical
cleanup, then structural formatting. -/
def formatResponse (s : List Char) : List Char :=
  ensureProperFormatting (cleanMathematicalContent (removeSpecialTokens s))

/-- A match of the lazy single-line span pattern (`\[.*?\]` with
`o = '['`, `c = ']'`, or `\(.*?\)`) somewhere in the string. -/
def hasSpanPattern (o c : Char) (s : List Char) : Bool :=
  s.tails.any fun t =>
    match t with
    | x :: rest => x = o && (findCloserIdx c rest).isSome
    | [] => false

/-! ## `query_processor.py`: the answering pipeline

`QueryProcessor.process_query` and its three branch handlers.  The groq
completion service is an external collaborator: the outcome of its `n`-th
call within one request (generated text, or the exception message) is
modelled by an oracle `svc : Nat → CompletionOutcome`.  The prompt strings
sent to it do not influence any control flow and are not modelled. -/

/-- Outcome of one completion-service call: the generated text, or the
exception it raised. -/
inductive CompletionOutcome where
  | ok (text : List Char)
  | fail (err : List Char)
  deriving DecidableEq, Repr

/-- One context document handed to `process_query`. -/
structure CtxDoc where
  content : List Char
  source : String
  page : Nat
  deriving DecidableEq, Repr

/-- Observable result of one `process_query` run: the returned answer, how
many completion-service calls were made, and which classification branch
(if any) was taken. -/
structure QueryRun where
  answer : List Char
  completionCalls : Nat
  classification : Option QueryClass
  deriving DecidableEq, Repr

/-- The fixed no-context reply of `process_query`. -/
def apologyText : List Char :=
  ("I couldn't find any relevant information in the uploaded documents to answer your question.").data

/-- The note appended by `_expand_brief_response` when the expansion call
fails. -/
def briefNoteText : List Char :=
  ("\n\n[Note: This response may be brief due to limitations in the available context]").data

/-- The note appended by `_expand_technical_response` when the expansion
call fails. -/
def briefNoteTechText : List Char :=
  ("\n\n[Note: This technical response may be brief due to limitations in the available context]").data

/-- `QueryProcessor._process_standard_query`: one completion call, format
the response, and if it is too brief run `_expand_brief_response` (a
second call; on its failure, the brief answer plus a note). -/
def processStandardQuery (q : List Char) (svc : Nat → CompletionOutcome) :
    List Char × Nat :=
  match svc 0 with
  | .fail e => (("Error processing query: ").data ++ e, 1)
  | .ok raw =>
    let cleaned := formatResponse raw
    if isResponseTooBrief cleaned q then
      match svc 1 with
      | .fail _ => (cleaned ++ briefNoteText, 2)
      | .ok raw₂ => (formatResponse raw₂, 2)
    else (cleaned, 1)

/-- `QueryProcessor._process_technical_query`, with
`_expand_technical_response` for the expansion pass. -/
def processTechnicalQueryRun (q : List Char) (svc : Nat → CompletionOutcome) :
    List Char × Nat :=
  match svc 0 with
  | .fail e => (("Error processing technical query: ").data ++ e, 1)
  | .ok raw =>
    let cleaned := formatResponse raw
    if isResponseTooBrief cleaned q then
      match svc 1 with
      | .fail _ => (cleaned ++ briefNoteTechText, 2)
      | .ok raw₂ => (formatResponse raw₂, 2)
    else (cleaned, 1)

/-- `QueryProcessor._process_complex_query`: a single completion call with
no brevity check. -/
def processComplexQuery (svc : Nat → CompletionOutcome) : List Char × Nat :=
  match svc 0 with
  | .fail e => (("Error processing complex query: ").data ++ e, 1)
  | .ok raw => (formatResponse raw, 1)

/-- `QueryProcessor.process_query`: an empty context returns the fixed
apology with no completion call and no classification; otherwise the
technical / complex / standard branch is chosen in that order. -/
def processQuery (q : List Char) (ctx : List CtxDoc)
    (svc : Nat → CompletionOutcome) : QueryRun :=
  if ctx = [] then { answer := apologyText, completionCalls := 0, classification := none }
  else if isTechnicalQuery q then
    let r := processTechnicalQueryRun q svc
    { answer := r.1, completionCalls := r.2, classification := some .technical }
  else if isComplexQuery q then
    let r := processComplexQuery svc
    { answer := r.1, completionCalls := r.2, classification := some .complex }
  else
    let r := processStandardQuery q svc
    { answer := r.1, completionCalls := r.2, classification := some .standard }

/-! # Theorems

First the general lemmas about the embedded operations, then one theorem
per claim (with its witness or counterexample). -/

/-! ## Lines, stripping and joining -/

theorem splitNl_ne_nil (t : List Char) : splitNl t ≠ [] := by
  cases t with
  | nil => simp [splitNl]
  | cons c rest =>
    simp only [splitNl]
    split
    · simp
    · split <;> simp

theorem not_nl_mem_splitNl (t : List Char) : ∀ l ∈ splitNl t, '\n' ∉ l := by
  induction t with
  | nil =>
    intro l hl
    simp only [splitNl, List.mem_singleton] at hl
    simp [hl]
  | cons c rest ih =>
    intro l hl
    simp only [splitNl] at hl
    split at hl
    · rcases List.mem_cons.mp hl with h | h
      · simp [h]
      · exact ih l h
    · rename_i hc
      split at hl
      · rename_i hrec
        rw [List.mem_singleton] at hl
        subst hl
        intro hmem
        rcases List.mem_cons.mp hmem with h' | h'
        · exact hc h'.symm
        · simp at h'
      · rename_i l₀ ls hrec
        rcases List.mem_cons.mp hl with h | h
        · subst h
          intro hmem
          rcases List.mem_cons.mp hmem with h' | h'
          · exact hc h'.symm
          · exact ih l₀ (by rw [hrec]; exact List.mem_cons_self _ _) h'
        · exact ih l (by rw [hrec]; exact List.mem_cons_of_mem _ h)

theorem stripChars_sublist (s : List Char) : (stripChars s).Sublist s := by
  have h1 : (s.dropWhile isPySpace).Sublist s := List.dropWhile_sublist _
  have h2 : ((s.dropWhile isPySpace).reverse.dropWhile isPySpace).Sublist
      (s.dropWhile isPySpace).reverse := List.dropWhile_sublist _
  have h3 := h2.reverse
  rw [List.reverse_reverse] at h3
  exact h3.trans h1

theorem not_nl_stripChars {s : List Char} (h : '\n' ∉ s) : '\n' ∉ stripChars s :=
  fun hm => h ((stripChars_sublist s).subset hm)

theorem joinNl_cons_of_ne_nil (l : List Char) {ls : List (List Char)} (h : ls ≠ []) :
    joinNl (l :: ls) = l ++ '\n' :: joinNl ls := by
  cases ls with
  | nil => exact absurd rfl h
  | cons a as => rfl

theorem prefix_joinNl (l : List Char) (ls : List (List Char)) : l <+: joinNl (l :: ls) := by
  cases ls with
  | nil => exact List.prefix_refl l
  | cons a as =>
    rw [joinNl_cons_of_ne_nil l (List.cons_ne_nil a as)]
    exact List.prefix_append _ _

theorem joinNl_append {xs ys : List (List Char)} (hx : xs ≠ []) (hy : ys ≠ []) :
    joinNl (xs ++ ys) = joinNl xs ++ '\n' :: joinNl ys := by
  induction xs with
  | nil => exact absurd rfl hx
  | cons a as ih =>
    cases as with
    | nil =>
      rw [List.singleton_append, joinNl_cons_of_ne_nil a hy]
      simp [joinNl]
    | cons b bs =>
      rw [List.cons_append, joinNl_cons_of_ne_nil a (by simp),
          joinNl_cons_of_ne_nil a (List.cons_ne_nil b bs), ih (List.cons_ne_nil b bs)]
      simp

theorem joinNl_ne_nil {fs : List (List Char)} (hne : fs ≠ [])
    (hmem : ∀ l ∈ fs, l ≠ []) : joinNl fs ≠ [] := by
  cases fs with
  | nil => exact absurd rfl hne
  | cons a as =>
    cases as with
    | nil => exact hmem a (by simp)
    | cons b bs =>
      rw [joinNl_cons_of_ne_nil a (List.cons_ne_nil b bs)]
      simp [hmem a (by simp)]

theorem countNonNl_eq_length {l : List Char} (h : '\n' ∉ l) : countNonNl l = l.length := by
  unfold countNonNl
  rw [List.filter_eq_self.mpr]
  intro a ha
  simp only [bne_iff_ne, ne_eq]
  exact fun he => h (he ▸ ha)

theorem countNonNl_append (s t : List Char) :
    countNonNl (s ++ t) = countNonNl s + countNonNl t := by
  simp [countNonNl]

theorem countNonNl_joinNl {bufs : List (List Char)} (h : ∀ l ∈ bufs, '\n' ∉ l) :
    countNonNl (joinNl bufs) = bufLen bufs := by
  induction bufs with
  | nil => simp [joinNl, countNonNl, bufLen]
  | cons a as ih =>
    cases as with
    | nil =>
      simp only [joinNl, bufLen, List.map_cons, List.map_nil, List.sum_cons,
        List.sum_nil, Nat.add_zero]
      exact countNonNl_eq_length (h a (by simp))
    | cons b bs =>
      rw [joinNl_cons_of_ne_nil a (List.cons_ne_nil b bs), countNonNl_append]
      have hnl : countNonNl ('\n' :: joinNl (b :: bs)) = countNonNl (joinNl (b :: bs)) := by
        simp [countNonNl]
      rw [hnl, ih (fun l hl => h l (List.mem_cons_of_mem _ hl)),
          countNonNl_eq_length (h a (List.mem_cons_self _ _))]
      simp [bufLen]

theorem bufLen_append_single (buf : List (List Char)) (l : List Char) :
    bufLen (buf ++ [l]) = bufLen buf + l.length := by
  simp [bufLen]

/-! ## Monotonicity of the technical detector under right extension

A technical line stays technical after more text is appended (needed
because a chunk's `is_technical` flag is recomputed over the joined
content). -/

theorem containsSub_infix_iff {n h : List Char} : containsSub n h = true ↔ n <:+: h := by
  unfold containsSub
  rw [List.any_eq_true]
  constructor
  · rintro ⟨t, ht, hp⟩
    exact List.infix_iff_prefix_suffix.mpr
      ⟨t, List.isPrefixOf_iff_prefix.mp hp, (List.mem_tails _ _).mp ht⟩
  · intro hinf
    rcases List.infix_iff_prefix_suffix.mp hinf with ⟨t, hp, hs⟩
    exact ⟨t, (List.mem_tails _ _).mpr hs, List.isPrefixOf_iff_prefix.mpr hp⟩

theorem pat1At_append {l t : List Char} (h : pat1At l = true) : pat1At (l ++ t) = true := by
  match l with
  | [] => simp [pat1At] at h
  | [x] => simp [pat1At] at h
  | x :: y :: rest =>
    simp only [pat1At, Bool.and_eq_true, decide_eq_true_eq] at h
    obtain ⟨⟨hx, hy⟩, hp⟩ := h
    have hp' : [']', ']'] <+: rest ++ t :=
      (List.isPrefixOf_iff_prefix.mp hp).trans (List.prefix_append rest t)
    simp only [List.cons_append, pat1At, Bool.and_eq_true, decide_eq_true_eq]
    exact ⟨⟨hx, hy⟩, List.isPrefixOf_iff_prefix.mpr hp'⟩

theorem pat2Close_append {l t : List Char} (h : pat2Close l = true) :
    pat2Close (l ++ t) = true := by
  induction l with
  | nil => simp [pat2Close] at h
  | cons c rest ih =>
    rw [List.cons_append]
    simp only [pat2Close] at h ⊢
    by_cases hc : c = '$'
    · rw [if_pos hc]
    · rw [if_neg hc] at h ⊢
      exact ih h

theorem pat2Mid_append {l t : List Char} (h : pat2Mid l = true) :
    pat2Mid (l ++ t) = true := by
  cases l with
  | nil => simp [pat2Mid] at h
  | cons c rest =>
    rw [List.cons_append]
    simp only [pat2Mid] at h ⊢
    by_cases hc : c = '$'
    · rw [if_pos hc] at h
      exact absurd h (by simp)
    · rw [if_neg hc] at h ⊢
      exact pat2Close_append h

theorem pat2At_append {l t : List Char} (h : pat2At l = true) : pat2At (l ++ t) = true := by
  cases l with
  | nil => simp [pat2At] at h
  | cons c rest =>
    simp only [pat2At, Bool.and_eq_true, decide_eq_true_eq, List.cons_append] at h ⊢
    exact ⟨h.1, pat2Mid_append h.2⟩

theorem pat3Dollar_append {l t : List Char} (h : pat3Dollar l = true) :
    pat3Dollar (l ++ t) = true := by
  cases l with
  | nil => simp [pat3Dollar] at h
  | cons c rest => simpa [pat3Dollar] using h

theorem pat3Close_append {l t : List Char} (h : pat3Close l = true) :
    pat3Close (l ++ t) = true := by
  induction l with
  | nil => simp [pat3Close] at h
  | cons c rest ih =>
    rw [List.cons_append]
    simp only [pat3Close] at h ⊢
    by_cases hc : c = '$'
    · rw [if_pos hc] at h ⊢
      exact pat3Dollar_append h
    · rw [if_neg hc] at h ⊢
      exact ih h

theorem pat3Mid_append {l t : List Char} (h : pat3Mid l = true) :
    pat3Mid (l ++ t) = true := by
  cases l with
  | nil => simp [pat3Mid] at h
  | cons c rest =>
    rw [List.cons_append]
    simp only [pat3Mid] at h ⊢
    by_cases hc : c = '$'
    · rw [if_pos hc] at h
      exact absurd h (by simp)
    · rw [if_neg hc] at h ⊢
      exact pat3Close_append h

theorem pat3At_append {l t : List Char} (h : pat3At l = true) : pat3At (l ++ t) = true := by
  match l with
  | [] => simp [pat3At] at h
  | [x] => simp [pat3At] at h
  | x :: y :: rest =>
    simp only [pat3At, Bool.and_eq_true, decide_eq_true_eq, List.cons_append] at h ⊢
    exact ⟨h.1, pat3Mid_append h.2⟩

theorem begClose_append {l t : List Char} (h : begClose l = true) :
    begClose (l ++ t) = true := by
  induction l with
  | nil => simp [begClose] at h
  | cons c rest ih =>
    rw [List.cons_append]
    simp only [begClose] at h ⊢
    by_cases hc : c = '\x7d'
    · rw [if_pos hc]
    · rw [if_neg hc] at h ⊢
      exact ih h

theorem begMid_append {l t : List Char} (h : begMid l = true) : begMid (l ++ t) = true := by
  cases l with
  | nil => simp [begMid] at h
  | cons c rest =>
    rw [List.cons_append]
    simp only [begMid] at h ⊢
    by_cases hc : c = '\x7d'
    · rw [if_pos hc] at h
      exact absurd h (by simp)
    · rw [if_neg hc] at h ⊢
      exact begClose_append h

theorem begAt_append {l t : List Char} (h : begAt l = true) : begAt (l ++ t) = true := by
  unfold begAt at h ⊢
  split at h
  · rename_i hp
    have hp' := List.isPrefixOf_iff_prefix.mp hp
    have hlen : 7 ≤ l.length := by
      have := hp'.length_le
      simpa using this
    rw [if_pos (List.isPrefixOf_iff_prefix.mpr (hp'.trans (List.prefix_append l t))),
        List.drop_append_of_le_length hlen]
    exact begMid_append h
  · simp at h

theorem hasMathAt_append {m : List Char → Bool}
    (hm : ∀ u t, m u = true → m (u ++ t) = true) {l t : List Char}
    (h : hasMathAt m l = true) : hasMathAt m (l ++ t) = true := by
  unfold hasMathAt at h ⊢
  rw [List.any_eq_true] at h ⊢
  obtain ⟨u, hu, hmu⟩ := h
  refine ⟨u ++ t, ?_, hm u t hmu⟩
  rw [List.mem_tails] at hu ⊢
  obtain ⟨w, hw⟩ := hu
  exact ⟨w, by rw [← List.append_assoc, hw]⟩

theorem isTechnicalContent_append {l t : List Char}
    (h : isTechnicalContent l = true) : isTechnicalContent (l ++ t) = true := by
  unfold isTechnicalContent at h ⊢
  simp only [Bool.or_eq_true] at h ⊢
  rcases h with ((((h | h) | h) | h) | h)
  · exact Or.inl (Or.inl (Or.inl (Or.inl (hasMathAt_append (fun u v => pat1At_append) h))))
  · exact Or.inl (Or.inl (Or.inl (Or.inr (hasMathAt_append (fun u v => pat2At_append) h))))
  · exact Or.inl (Or.inl (Or.inr (hasMathAt_append (fun u v => pat3At_append) h)))
  · exact Or.inl (Or.inr (hasMathAt_append (fun u v => begAt_append) h))
  · right
    rw [List.any_eq_true] at h ⊢
    obtain ⟨term, hterm, hc⟩ := h
    refine ⟨term, hterm, ?_⟩
    rw [containsSub_infix_iff] at hc ⊢
    obtain ⟨u, v, huv⟩ := hc
    refine ⟨u, v ++ lowerStr t, ?_⟩
    rw [show lowerStr (l ++ t) = lowerStr l ++ lowerStr t from List.map_append _ _ _, ← huv]
    simp

/-! ## Invariants of the chunk accumulation loop -/

theorem mkChunk_size {buf : List (List Char)} {p : Nat} {s : String}
    (hnl : ∀ l ∈ buf, '\n' ∉ l) (hinv : buf.length ≤ 1 ∨ bufLen buf ≤ 1200) :
    '\n' ∉ (mkChunk buf p s).content ∨ countNonNl (mkChunk buf p s).content ≤ 1200 := by
  match buf with
  | [] => left; simp [mkChunk, joinNl]
  | [a] =>
    left
    simp only [mkChunk, joinNl]
    exact hnl a (by simp)
  | a :: b :: bs =>
    right
    have hc : (mkChunk (a :: b :: bs) p s).content = joinNl (a :: b :: bs) := rfl
    rw [hc, countNonNl_joinNl hnl]
    rcases hinv with h | h
    · simp at h
    · exact h

theorem mkChunk_head_technical {line : List Char} {buf' : List (List Char)}
    {p : Nat} {s : String} (h : isTechnicalContent line = true) :
    line <+: (mkChunk (line :: buf') p s).content ∧
      (mkChunk (line :: buf') p s).is_technical = true := by
  constructor
  · exact prefix_joinNl line buf'
  · show isTechnicalContent (joinNl (line :: buf')) = true
    cases buf' with
    | nil => simpa [joinNl] using h
    | cons b bs =>
      rw [joinNl_cons_of_ne_nil line (List.cons_ne_nil b bs)]
      exact isTechnicalContent_append h

theorem processLines_ne_nil (p : Nat) (s : String) :
    ∀ ls buf, buf ≠ [] → processLines p s ls buf ≠ [] := by
  intro ls
  induction ls with
  | nil =>
    intro buf hb
    simp [processLines, hb]
  | cons raw rest ih =>
    intro buf hb
    simp only [processLines]
    split
    · exact ih buf hb
    · split
      · simp
      · split
        · simp
        · exact ih (buf ++ [stripChars raw]) (by simp)

theorem processLines_size (p : Nat) (s : String) :
    ∀ ls buf, (∀ l ∈ buf, '\n' ∉ l) → (buf.length ≤ 1 ∨ bufLen buf ≤ 1200) →
      (∀ raw ∈ ls, '\n' ∉ stripChars raw) →
      ∀ ch ∈ processLines p s ls buf,
        '\n' ∉ ch.content ∨ countNonNl ch.content ≤ 1200 := by
  intro ls
  induction ls with
  | nil =>
    intro buf hnl hinv _ ch hch
    simp only [processLines] at hch
    split at hch
    · simp at hch
    · rw [List.mem_singleton] at hch
      subst hch
      exact mkChunk_size hnl hinv
  | cons raw rest ih =>
    intro buf hnl hinv hrest ch hch
    have hraw : '\n' ∉ stripChars raw := hrest raw (List.mem_cons_self _ _)
    have hrest' : ∀ r ∈ rest, '\n' ∉ stripChars r :=
      fun r hr => hrest r (List.mem_cons_of_mem _ hr)
    have hsingle : ∀ l ∈ [stripChars raw], '\n' ∉ l := by
      intro l hl
      rw [List.mem_singleton] at hl
      subst hl
      exact hraw
    simp only [processLines] at hch
    split at hch
    · exact ih buf hnl hinv hrest' ch hch
    · split at hch
      · rcases List.mem_cons.mp hch with h | h
        · subst h
          exact mkChunk_size hnl hinv
        · exact ih [stripChars raw] hsingle (Or.inl (by simp)) hrest' ch h
      · split at hch
        · rcases List.mem_append.mp hch with h | h
          · split at h
            · simp at h
            · rw [List.mem_singleton] at h
              subst h
              exact mkChunk_size hnl hinv
          · exact ih [stripChars raw] hsingle (Or.inl (by simp)) hrest' ch h
        · refine ih (buf ++ [stripChars raw]) ?_ ?_ hrest' ch hch
          · intro l hl
            rcases List.mem_append.mp hl with h | h
            · exact hnl l h
            · rw [List.mem_singleton] at h
              subst h
              exact hraw
          · right
            rename_i hno
            rw [bufLen_append_single]
            omega

theorem processLines_join (p : Nat) (s : String) :
    ∀ ls buf, joinContents (processLines p s ls buf) = joinNl (buf ++ filteredLines ls) := by
  intro ls
  induction ls with
  | nil =>
    intro buf
    have hf : filteredLines [] = [] := rfl
    rw [hf, List.append_nil]
    simp only [processLines]
    split
    · rename_i hb
      subst hb
      rfl
    · simp [joinContents, mkChunk, joinNl]
  | cons raw rest ih =>
    intro buf
    simp only [processLines]
    by_cases h1 : stripChars raw = []
    · rw [if_pos h1, ih buf,
        show filteredLines (raw :: rest) = filteredLines rest by
          simp [filteredLines, h1]]
    · have hfl : filteredLines (raw :: rest) = stripChars raw :: filteredLines rest := by
        simp [filteredLines, h1]
      rw [if_neg h1]
      split
      · rename_i h2
        have hmapne : (processLines p s rest [stripChars raw]).map (·.content) ≠ [] := by
          have := processLines_ne_nil p s rest [stripChars raw] (by simp)
          simpa using this
        rw [joinContents, List.map_cons, joinNl_cons_of_ne_nil _ hmapne]
        have hrec : joinNl ((processLines p s rest [stripChars raw]).map (·.content)) =
            joinNl ([stripChars raw] ++ filteredLines rest) := ih [stripChars raw]
        rw [hrec, hfl, joinNl_append h2.2 (List.cons_ne_nil _ _), List.singleton_append]
        rfl
      · split
        · by_cases hb : buf = []
          · subst hb
            rw [if_pos rfl, List.nil_append, ih [stripChars raw], hfl, List.nil_append,
              List.singleton_append]
          · rw [if_neg hb]
            have hmapne : (processLines p s rest [stripChars raw]).map (·.content) ≠ [] := by
              have := processLines_ne_nil p s rest [stripChars raw] (by simp)
              simpa using this
            rw [List.singleton_append, joinContents, List.map_cons,
              joinNl_cons_of_ne_nil _ hmapne]
            have hrec : joinNl ((processLines p s rest [stripChars raw]).map (·.content)) =
                joinNl ([stripChars raw] ++ filteredLines rest) := ih [stripChars raw]
            rw [hrec, hfl, joinNl_append hb (List.cons_ne_nil _ _), List.singleton_append]
            rfl
        · rw [ih (buf ++ [stripChars raw]), hfl, List.append_assoc, List.singleton_append]

theorem processLines_nil_of_blank (p : Nat) (s : String) :
    ∀ ls, filteredLines ls = [] → processLines p s ls [] = [] := by
  intro ls
  induction ls with
  | nil => intro _; rfl
  | cons raw rest ih =>
    intro h
    have h1 : stripChars raw = [] ∧ filteredLines rest = [] := by
      by_cases hr : stripChars raw = []
      · refine ⟨hr, ?_⟩
        simpa [filteredLines, hr] using h
      · exfalso
        have : filteredLines (raw :: rest) = stripChars raw :: filteredLines rest := by
          simp [filteredLines, hr]
        rw [this] at h
        simp at h
    simp only [processLines, if_pos h1.1]
    exact ih h1.2

theorem mem_filteredLines_ne_nil {ls : List (List Char)} :
    ∀ l ∈ filteredLines ls, l ≠ [] := by
  intro l hl
  have := List.of_mem_filter hl
  simpa using this

theorem processLines_head_chunk (p : Nat) (s : String) :
    ∀ ls line buf', isTechnicalContent line = true →
      ∃ ch ∈ processLines p s ls (line :: buf'),
        line <+: ch.content ∧ ch.is_technical = true := by
  intro ls
  induction ls with
  | nil =>
    intro line buf' htech
    exact ⟨mkChunk (line :: buf') p s, by simp [processLines],
      (mkChunk_head_technical htech).1, (mkChunk_head_technical htech).2⟩
  | cons raw rest ih =>
    intro line buf' htech
    simp only [processLines]
    split
    · exact ih line buf' htech
    · split
      · exact ⟨mkChunk (line :: buf') p s, List.mem_cons_self _ _,
          (mkChunk_head_technical htech).1, (mkChunk_head_technical htech).2⟩
      · split
        · refine ⟨mkChunk (line :: buf') p s, ?_,
            (mkChunk_head_technical htech).1, (mkChunk_head_technical htech).2⟩
          rw [if_neg (List.cons_ne_nil line buf')]
          exact List.mem_append_left _ (List.mem_singleton.mpr rfl)
        · obtain ⟨ch, hch, hpre, htec⟩ := ih line (buf' ++ [stripChars raw]) htech
          exact ⟨ch, hch, hpre, htec⟩

theorem processLines_technical_line (p : Nat) (s : String) :
    ∀ ls buf raw, raw ∈ ls → stripChars raw ≠ [] →
      isTechnicalContent (stripChars raw) = true →
      ∃ ch ∈ processLines p s ls buf,
        stripChars raw <+: ch.content ∧ ch.is_technical = true := by
  intro ls
  induction ls with
  | nil =>
    intro buf raw hmem
    simp at hmem
  | cons r rest ih =>
    intro buf raw hmem hne htech
    rcases List.mem_cons.mp hmem with hr | hr
    · subst hr
      simp only [processLines]
      split
      · rename_i h1
        exact absurd h1 hne
      · split
        · obtain ⟨ch, hch, hpre, htec⟩ := processLines_head_chunk p s rest (stripChars raw) [] htech
          exact ⟨ch, List.mem_cons_of_mem _ hch, hpre, htec⟩
        · rename_i h2
          have hbuf : buf = [] := by
            by_contra hb
            exact h2 ⟨htech, hb⟩
          subst hbuf
          split
          · obtain ⟨ch, hch, hpre, htec⟩ :=
              processLines_head_chunk p s rest (stripChars raw) [] htech
            exact ⟨ch, List.mem_append_right _ hch, hpre, htec⟩
          · obtain ⟨ch, hch, hpre, htec⟩ :=
              processLines_head_chunk p s rest (stripChars raw) [] htech
            refine ⟨ch, ?_, hpre, htec⟩
            simpa using hch
    · simp only [processLines]
      split
      · exact ih buf raw hr hne htech
      · split
        · obtain ⟨ch, hch, hpre, htec⟩ := ih [stripChars r] raw hr hne htech
          exact ⟨ch, List.mem_cons_of_mem _ hch, hpre, htec⟩
        · split
          · obtain ⟨ch, hch, hpre, htec⟩ := ih [stripChars r] raw hr hne htech
            exact ⟨ch, List.mem_append_right _ hch, hpre, htec⟩
          · exact ih (buf ++ [stripChars r]) raw hr hne htech

/-! ## Evaluation lemmas for an over-long non-technical line -/

theorem stripChars_replicate {c : Char} (h : isPySpace c = false) (n : Nat) :
    stripChars (List.replicate n c) = List.replicate n c := by
  have hd : ∀ m : Nat, (List.replicate m c).dropWhile isPySpace = List.replicate m c := by
    intro m
    cases m with
    | zero => rfl
    | succ k =>
      rw [List.replicate_succ, List.dropWhile_cons, h]
      simp
  unfold stripChars
  rw [hd, List.reverse_replicate, hd, List.reverse_replicate]

theorem splitNl_replicate {c : Char} (h : ¬c = '\n') (n : Nat) :
    splitNl (List.replicate n c) = [List.replicate n c] := by
  induction n with
  | zero => rfl
  | succ k ih =>
    rw [List.replicate_succ]
    simp only [splitNl, if_neg h, ih]

theorem hasMath_pat1_mem {l : List Char} (h : hasMathAt pat1At l = true) : '\\' ∈ l := by
  unfold hasMathAt at h
  rw [List.any_eq_true] at h
  obtain ⟨t, ht, hm⟩ := h
  rw [List.mem_tails] at ht
  match t, hm with
  | x :: y :: rest, hm =>
    simp only [pat1At, Bool.and_eq_true, decide_eq_true_eq] at hm
    exact ht.sublist.subset (hm.1.1 ▸ List.mem_cons_self x _)

theorem hasMath_pat2_mem {l : List Char} (h : hasMathAt pat2At l = true) : '$' ∈ l := by
  unfold hasMathAt at h
  rw [List.any_eq_true] at h
  obtain ⟨t, ht, hm⟩ := h
  rw [List.mem_tails] at ht
  match t, hm with
  | x :: rest, hm =>
    simp only [pat2At, Bool.and_eq_true, decide_eq_true_eq] at hm
    exact ht.sublist.subset (hm.1 ▸ List.mem_cons_self x _)

theorem hasMath_pat3_mem {l : List Char} (h : hasMathAt pat3At l = true) : '$' ∈ l := by
  unfold hasMathAt at h
  rw [List.any_eq_true] at h
  obtain ⟨t, ht, hm⟩ := h
  rw [List.mem_tails] at ht
  match t, hm with
  | x :: y :: rest, hm =>
    simp only [pat3At, Bool.and_eq_true, decide_eq_true_eq] at hm
    exact ht.sublist.subset (hm.1.1 ▸ List.mem_cons_self x _)

theorem hasMath_beg_mem {l : List Char} (h : hasMathAt begAt l = true) : '\\' ∈ l := by
  unfold hasMathAt at h
  rw [List.any_eq_true] at h
  obtain ⟨t, ht, hm⟩ := h
  rw [List.mem_tails] at ht
  unfold begAt at hm
  split at hm
  · rename_i hp
    have hp' := List.isPrefixOf_iff_prefix.mp hp
    exact ht.sublist.subset (hp'.sublist.subset (by decide))
  · simp at hm

theorem containsSub_replicate_false {t : List Char} {c : Char} {n : Nat}
    (hne : ∃ a ∈ t, a ≠ c) : containsSub t (List.replicate n c) = false := by
  by_contra h
  simp only [Bool.not_eq_false] at h
  obtain ⟨a, ha, hac⟩ := hne
  have := (containsSub_infix_iff.mp h).sublist.subset ha
  rw [List.mem_replicate] at this
  exact hac this.2

theorem isTechnicalContent_replicate_x (n : Nat) :
    isTechnicalContent (List.replicate n 'x') = false := by
  by_contra hne
  simp only [Bool.not_eq_false] at hne
  unfold isTechnicalContent at hne
  simp only [Bool.or_eq_true] at hne
  rcases hne with ((((h | h) | h) | h) | h)
  · exact absurd (List.mem_replicate.mp (hasMath_pat1_mem h)).2 (by decide)
  · exact absurd (List.mem_replicate.mp (hasMath_pat2_mem h)).2 (by decide)
  · exact absurd (List.mem_replicate.mp (hasMath_pat3_mem h)).2 (by decide)
  · exact absurd (List.mem_replicate.mp (hasMath_beg_mem h)).2 (by decide)
  · rw [List.any_eq_true] at h
    obtain ⟨term, hterm, hc⟩ := h
    have hl : lowerStr (List.replicate n 'x') = List.replicate n 'x' := by
      rw [lowerStr, List.map_replicate, show lowerChar 'x' = 'x' from by decide]
    rw [hl] at hc
    fin_cases hterm <;>
      first
      | (rw [containsSub_replicate_false ⟨'d', by decide, by decide⟩] at hc; exact absurd hc (by simp))
      | (rw [containsSub_replicate_false ⟨'t', by decide, by decide⟩] at hc; exact absurd hc (by simp))
      | (rw [containsSub_replicate_false ⟨'l', by decide, by decide⟩] at hc; exact absurd hc (by simp))
      | (rw [containsSub_replicate_false ⟨'c', by decide, by decide⟩] at hc; exact absurd hc (by simp))
      | (rw [containsSub_replicate_false ⟨'p', by decide, by decide⟩] at hc; exact absurd hc (by simp))
      | (rw [containsSub_replicate_false ⟨'e', by decide, by decide⟩] at hc; exact absurd hc (by simp))
      | (rw [containsSub_replicate_false ⟨'f', by decide, by decide⟩] at hc; exact absurd hc (by simp))
      | (rw [containsSub_replicate_false ⟨'m', by decide, by decide⟩] at hc; exact absurd hc (by simp))
      | (rw [containsSub_replicate_false ⟨'v', by decide, by decide⟩] at hc; exact absurd hc (by simp))
      | (rw [containsSub_replicate_false ⟨'i', by decide, by decide⟩] at hc; exact absurd hc (by simp))
      | (rw [containsSub_replicate_false ⟨'a', by decide, by decide⟩] at hc; exact absurd hc (by simp))

theorem processTechnicalText_replicate_x :
    processTechnicalText (List.replicate 2000 'x') 0 "doc" =
      [{ content := List.replicate 2000 'x', page := 1, source := "doc",
         is_technical := false }] := by
  unfold processTechnicalText
  rw [splitNl_replicate (by decide) 2000]
  simp only [processLines]
  rw [stripChars_replicate (by decide) 2000]
  rw [if_neg (by simp : ¬(List.replicate 2000 'x' = [])),
      if_neg (fun hand => hand.2 rfl),
      if_pos (by simp [bufLen] : bufLen [] + (List.replicate 2000 'x').length > 1200)]
  rw [if_pos trivial, List.nil_append,
      if_neg (by simp : ¬([List.replicate 2000 'x'] = ([] : List (List Char))))]
  unfold mkChunk
  rw [show joinNl [List.replicate 2000 'x'] = List.replicate 2000 'x' from rfl,
      isTechnicalContent_replicate_x]

/-! ## Claims C2, C3 and C4 -/

/-- Claim C2, counterexample: a page consisting of one non-technical line of
2000 `'x'` characters yields a single chunk whose content has 2000 > 1200
characters, although no technical line exceeds the threshold (the page's
only line is not technical at all).  The claim's "unless a single technical
line alone exceeds it" therefore fails: any over-long line, technical or
not, becomes an over-long chunk. -/
theorem c2_counterexample :
    processTechnicalText (List.replicate 2000 'x') 0 "doc" =
      [{ content := List.replicate 2000 'x', page := 1, source := "doc",
         is_technical := false }] ∧
    1200 < (List.replicate 2000 'x').length ∧
    splitNl (List.replicate 2000 'x') = [List.replicate 2000 'x'] ∧
    stripChars (List.replicate 2000 'x') = List.replicate 2000 'x' ∧
    isTechnicalContent (List.replicate 2000 'x') = false :=
  ⟨processTechnicalText_replicate_x, by simp, splitNl_replicate (by decide) 2000,
    stripChars_replicate (by decide) 2000, isTechnicalContent_replicate_x 2000⟩

/-- Claim C2 (amended): every chunk the Chunker produces either consists of
a single line (its content contains no newline; a single line of any kind —
technical or not — may exceed the threshold), or its content carries at
most 1200 characters excluding the newline separators inserted between the
buffered lines. -/
theorem c2_chunk_size_amended (text : List Char) (p : Nat) (s : String) :
    ∀ ch ∈ processTechnicalText text p s,
      '\n' ∉ ch.content ∨ countNonNl ch.content ≤ 1200 := by
  intro ch hch
  rw [processTechnicalText] at hch
  exact processLines_size p s (splitNl text) [] (by simp) (Or.inl (by simp))
    (fun raw hraw => not_nl_stripChars (not_nl_mem_splitNl text raw hraw)) ch hch

/-- Witness for `c2_chunk_size_amended` at the one-line page `"abc"`. -/
theorem c2_chunk_size_amended_witness :
    '\n' ∉ (⟨"abc".data, 1, "doc", false⟩ : Chunk).content ∨
      countNonNl (⟨"abc".data, 1, "doc", false⟩ : Chunk).content ≤ 1200 :=
  c2_chunk_size_amended "abc".data 0 "doc" ⟨"abc".data, 1, "doc", false⟩ (by decide)

/-- Claim C3, counterexample: on the page `" a"` (a single line with a
leading space and no empty line at all) the chunker reproduces `"a"`, not
`" a"`: the concatenation differs from the original by the whitespace
stripping of a *non-empty* line, which "modulo whitespace trimming of
empty lines" does not license. -/
theorem c3_counterexample :
    joinContents (processTechnicalText (" a").data 0 "doc") = ("a").data ∧
    specTrimEmptyLines (" a").data = (" a").data ∧
    joinContents (processTechnicalText (" a").data 0 "doc") ≠
      specTrimEmptyLines (" a").data := by
  refine ⟨by decide, by decide, ?_⟩
  decide

/-- Claim C3 (amended): concatenating all chunk contents (with the same
`'\n'` separator used inside chunks) reproduces the page text with every
line whitespace-stripped and empty lines removed; and a page with no
content after this filtering yields zero chunks (and conversely). -/
theorem c3_concat_amended (text : List Char) (p : Nat) (s : String) :
    joinContents (processTechnicalText text p s) =
      joinNl (filteredLines (splitNl text)) ∧
    (processTechnicalText text p s = [] ↔ filteredLines (splitNl text) = []) := by
  have hj : joinContents (processTechnicalText text p s) =
      joinNl (filteredLines (splitNl text)) := by
    have := processLines_join p s (splitNl text) []
    simpa [processTechnicalText] using this
  refine ⟨hj, ?_, ?_⟩
  · intro h
    by_contra hne
    rw [h] at hj
    exact joinNl_ne_nil hne mem_filteredLines_ne_nil (hj.symm.trans (by rfl))
  · intro h
    rw [processTechnicalText]
    exact processLines_nil_of_blank p s (splitNl text) h

/-- Claim C4: every line flagged by the technical detector begins a chunk
of its own (the pending buffer is flushed first when non-empty), and that
chunk's `is_technical` flag — recomputed over the joined content — is
true. -/
theorem c4_technical_lines_start_chunks (text : List Char) (p : Nat) (s : String) :
    ∀ raw ∈ splitNl text, stripChars raw ≠ [] →
      isTechnicalContent (stripChars raw) = true →
      ∃ ch ∈ processTechnicalText text p s,
        stripChars raw <+: ch.content ∧ ch.is_technical = true := by
  intro raw hmem hne htech
  rw [processTechnicalText]
  exact processLines_technical_line p s (splitNl text) [] raw hmem hne htech

/-- Witness for `c4_technical_lines_start_chunks`: a page containing the
line `"Theorem 1: every x is y."` yields a chunk whose content starts with
that line (hence with `"Theorem 1"`) and whose `is_technical` flag is
true. -/
theorem c4_witness :
    ∃ ch ∈ processTechnicalText
        ("Intro text here\nTheorem 1: every x is y.\nMore text.").data 1 "paper.pdf",
      stripChars ("Theorem 1: every x is y.").data <+: ch.content ∧
        ch.is_technical = true :=
  c4_technical_lines_start_chunks
    ("Intro text here\nTheorem 1: every x is y.\nMore text.").data 1 "paper.pdf"
    ("Theorem 1: every x is y.").data (by decide) (by decide) (by decide)

/-! ## Claim C5 -/

/-- Claim C5: classification is a pure function of lowercase keyword
membership, checked in the order technical, then complex, then standard;
`"What is the Bregman divergence?"` is technical, `"Compare approach A and
approach B"` is complex, and `"What is the title?"` is standard. -/
theorem c5_classifier :
    classifyQuery ("What is the Bregman divergence?").data = QueryClass.technical ∧
    classifyQuery ("Compare approach A and approach B").data = QueryClass.complex ∧
    classifyQuery ("What is the title?").data = QueryClass.standard ∧
    (∀ q : List Char,
      (isTechnicalQuery q = true → classifyQuery q = QueryClass.technical) ∧
      (isTechnicalQuery q = false → isComplexQuery q = true →
        classifyQuery q = QueryClass.complex) ∧
      (isTechnicalQuery q = false → isComplexQuery q = false →
        classifyQuery q = QueryClass.standard)) ∧
    (∀ q : List Char, isTechnicalQuery q =
      (technicalQueryIndicators.any fun t => containsSub t.data (lowerStr q))) ∧
    (∀ q : List Char, isComplexQuery q =
      (complexQueryIndicators.any fun t => containsSub t.data (lowerStr q))) := by
  refine ⟨by decide, by decide, by decide, ?_, fun q => rfl, fun q => rfl⟩
  intro q
  refine ⟨fun h => by simp [classifyQuery, h],
    fun h1 h2 => by simp [classifyQuery, h1, h2],
    fun h1 h2 => by simp [classifyQuery, h1, h2]⟩

/-- Witness for the implication parts of `c5_classifier`, instantiated at
the technical example. -/
theorem c5_classifier_witness :
    isTechnicalQuery ("What is the Bregman divergence?").data = true ∧
    classifyQuery ("What is the Bregman divergence?").data = QueryClass.technical :=
  ⟨by decide,
    (c5_classifier.2.2.2.1 ("What is the Bregman divergence?").data).1 (by decide)⟩

/-! ## Claim C6 -/

/-- Claim C6, counterexample: a 101-word answer to a 2-word question whose
three sentences end in `'!'` — so it has at least three sentences (three
sentence-ending punctuation marks), a word count at or above the bound,
and none of the claim's suffixes — is nonetheless judged too brief by the
code, because the code counts sentences by splitting on `". "`
(period-space) and finds only one segment.  So the claim's "exactly when"
equivalence is false. -/
theorem c6_counterexample :
    claimTooBrief
      (List.intercalate (" ".data) (List.replicate 98 ("word".data)) ++
        (" one! two! three!").data) ("hi").data = false ∧
    isResponseTooBrief
      (List.intercalate (" ".data) (List.replicate 98 ("word".data)) ++
        (" one! two! three!").data) ("hi").data = true ∧
    wordCount (List.intercalate (" ".data) (List.replicate 98 ("word".data)) ++
      (" one! two! three!").data) = 101 ∧
    sentEnderCount (List.intercalate (" ".data) (List.replicate 98 ("word".data)) ++
      (" one! two! three!").data) = 3 := by
  refine ⟨by decide, by decide, by decide, by decide⟩

/-- Claim C6 (amended): the brevity detector fires exactly when the word
count is below `max(100, 3 × question words)`, or the answer ends with
`"..."`, `"etc."` or bare `"etc"`, or splitting the answer on the
two-character separator `". "` yields fewer than three segments (the
code's approximation of "fewer than three sentences"); the spec's two
examples behave as stated. -/
theorem c6_brevity_amended :
    (∀ response query : List Char,
      isResponseTooBrief response query =
        ((wordCount response < max 100 (3 * wordCount query)) ||
          (("...").data.isSuffixOf response || ("etc.").data.isSuffixOf response ||
            ("etc").data.isSuffixOf response) ||
          decide ((splitDotSpace response).length < 3))) ∧
    isResponseTooBrief (List.intercalate (" ".data) (List.replicate 40 ("word".data)))
      (List.intercalate (" ".data) (List.replicate 10 ("q".data))) = true ∧
    isResponseTooBrief
      (List.intercalate (". ".data)
        (List.replicate 5 (List.intercalate (" ".data) (List.replicate 30 ("word".data)))) ++
        (".".data))
      (List.intercalate (" ".data) (List.replicate 10 ("q".data))) = false := by
  refine ⟨?_, by decide, by decide⟩
  intro response query
  simp [isResponseTooBrief, Nat.mul_comm, Bool.or_assoc]

/-! ## Claim C1 -/

theorem fallbackHits_score (res : Except Unit ChromaRes) :
    ∀ h ∈ fallbackHits res, h.score = 0 := by
  intro h hh
  cases res with
  | error e => simp [fallbackHits] at hh
  | ok r =>
    simp only [fallbackHits, List.mem_map] at hh
    obtain ⟨t, _, ht⟩ := hh
    rw [← ht]

/-- Claim C1, counterexample: when the provider is UNAVAILABLE
(`embedding_model is None`), `search` still queries the collection by text
inside the `try` block and forwards the collection's reported distances as
scores (`score = distances[0][i] if results["distances"] else 0`).  A
collection response with a distance of `1/2` yields a hit with score
`1/2 ≠ 0`, refuting "every returned hit carries score = 0". -/
theorem c1_counterexample :
    searchModel false true ("q").data
      (fun _ => .ok ⟨[(("t").data, ⟨3, "doc.pdf"⟩, (1 : ℚ) / 2)], true⟩)
      (fun _ => .ok ⟨[], true⟩) =
      [{ content := ("t").data, metadata := ⟨3, "doc.pdf"⟩, score := (1 : ℚ) / 2 }] ∧
    ((1 : ℚ) / 2) ≠ 0 := by
  refine ⟨rfl, by norm_num⟩

/-- Claim C1 (amended): `search` is total and returns a (possibly empty)
hit list in every degraded situation; every hit reaching the caller
through the exception fallback (`_fallback_text_search`) carries
`score = 0`, as does every hit of a collection response without a truthy
`distances` field; but in the UNAVAILABLE path the code passes the
collection's reported distances through, so `score = 0` is guaranteed only
when embedding fails per-call, the main query raises, or the collection
reports no distances. -/
theorem c1_degraded_scores :
    (∀ (mq fb : List Char → Except Unit ChromaRes) (q : List Char) (h : Hit),
      h ∈ searchModel true false q mq fb → h.score = 0) ∧
    (∀ (eo : Bool) (mq fb : List Char → Except Unit ChromaRes) (q : List Char) (h : Hit),
      mq (preprocessQuery q) = .error () → h ∈ searchModel false eo q mq fb →
        h.score = 0) ∧
    (∀ (eo : Bool) (r : ChromaRes) (mq fb : List Char → Except Unit ChromaRes)
        (q : List Char) (h : Hit),
      r.hasDistances = false → mq (preprocessQuery q) = .ok r →
        h ∈ searchModel false eo q mq fb → h.score = 0) := by
  refine ⟨?_, ?_, ?_⟩
  · intro mq fb q h hh
    simp only [searchModel, if_pos rfl, Bool.false_eq_true, if_false] at hh
    exact fallbackHits_score (fb q) h hh
  · intro eo mq fb q h hmq hh
    simp only [searchModel, Bool.false_eq_true, if_false, hmq] at hh
    exact fallbackHits_score (fb q) h hh
  · intro eo r mq fb q h hr hmq hh
    simp only [searchModel, Bool.false_eq_true, if_false, hmq] at hh
    simp only [mkHits, List.mem_map] at hh
    obtain ⟨t, _, ht⟩ := hh
    rw [← ht]
    simp [hr]

/-- Witness for `c1_degraded_scores` at a concrete fallback response. -/
theorem c1_degraded_scores_witness :
    ({ content := ("t").data, metadata := ⟨3, "doc.pdf"⟩, score := 0 } : Hit).score = 0 :=
  c1_degraded_scores.1 (fun _ => .ok ⟨[], true⟩)
    (fun _ => .ok ⟨[(("t").data, ⟨3, "doc.pdf"⟩, 5)], true⟩)
    ("q").data { content := ("t").data, metadata := ⟨3, "doc.pdf"⟩, score := 0 }
    (by decide)

/-! ## Claim C7 -/

theorem deleteDocument_filter_nil (st : List Entry) (s : String) :
    (deleteDocument st s).1.filter (fun e => e.source == s) = [] := by
  unfold deleteDocument
  by_cases hids : ((st.filter fun e => e.source == s).map (·.id)).isEmpty
  · rw [if_pos hids]
    rw [List.isEmpty_iff, List.map_eq_nil] at hids
    exact hids
  · rw [if_neg hids]
    dsimp only
    rw [List.filter_eq_nil]
    intro e he hsrc
    have h1 := List.of_mem_filter he
    have h2 := List.mem_of_mem_filter he
    have hmem : e ∈ st.filter fun e => e.source == s := List.mem_filter.mpr ⟨h2, hsrc⟩
    have hid : e.id ∈ (st.filter fun e => e.source == s).map (·.id) :=
      List.mem_map.mpr ⟨e, hmem, rfl⟩
    have hcont : ((st.filter fun e => e.source == s).map (·.id)).contains e.id = true :=
      List.elem_eq_true_of_mem hid
    rw [hcont] at h1
    simp at h1

theorem deleteDocument_false_of_none {st : List Entry} {s : String}
    (h : st.filter (fun e => e.source == s) = []) :
    (deleteDocument st s).2 = false := by
  unfold deleteDocument
  rw [h]
  rfl

/-- Claim C7: `delete(source)` removes every entry of that source and
returns true exactly when something matched; a `where`-filtered search for
that source afterwards returns no hits (in every search mode), and a
second deletion returns false rather than raising. -/
theorem c7_delete_document (st : List Entry) (s : String) :
    ((deleteDocument st s).2 = true ↔ (st.any fun e => e.source == s) = true) ∧
    (deleteDocument st s).1.filter (fun e => e.source == s) = [] ∧
    (deleteDocument (deleteDocument st s).1 s).2 = false ∧
    (∀ (ml eo : Bool) (n : Nat) (rank : Entry → ℚ),
      searchWithinDocument ml eo s n (deleteDocument st s).1 rank = []) := by
  have hfil := deleteDocument_filter_nil st s
  refine ⟨?_, hfil, deleteDocument_false_of_none hfil, ?_⟩
  · unfold deleteDocument
    by_cases hids : ((st.filter fun e => e.source == s).map (·.id)).isEmpty
    · rw [if_pos hids]
      rw [List.isEmpty_iff, List.map_eq_nil, List.filter_eq_nil] at hids
      constructor
      · intro h
        exact absurd h (by simp)
      · intro hany
        exfalso
        rw [List.any_eq_true] at hany
        obtain ⟨e, he, hsrc⟩ := hany
        exact hids e he hsrc
    · rw [if_neg hids]
      refine ⟨fun _ => ?_, fun _ => rfl⟩
      have hne : (st.filter fun e => e.source == s) ≠ [] := by
        intro hnil
        apply hids
        rw [hnil]
        rfl
      obtain ⟨e, tl, hcons⟩ := List.exists_cons_of_ne_nil hne
      have hmem : e ∈ st.filter fun e => e.source == s := by
        rw [hcons]
        exact List.mem_cons_self _ _
      rw [List.any_eq_true]
      exact ⟨e, List.mem_of_mem_filter hmem, (List.mem_filter.mp hmem).2⟩
  · intro ml eo n rank
    cases ml <;> cases eo <;>
      simp [searchWithinDocument, chromaQueryWhere, mkHits, fallbackTextSearchWithin,
        hfil, sortRanked]

/-! ## Claim C8 -/

/-- Claim C8, counterexample: `add_documents` stores chunk contents
verbatim (no preprocessing), while `search` preprocesses the query with
lower-casing and abbreviation expansion; on the text `"ai"` the two
transformations disagree, so the search-time preprocessing is *not* the
preprocessing applied at index time. -/
theorem c8_counterexample :
    addTexts [{ content := ("ai").data, page := 1, source := "d", is_technical := false }] =
      [("ai").data] ∧
    preprocessQuery ("ai").data = ("ai artificial intelligence").data ∧
    preprocessQuery ("ai").data ≠ indexTimePreprocess ("ai").data := by
  refine ⟨rfl, by decide, by decide⟩

/-- Claim C8 (amended): `add_documents` embeds and stores the chunk texts
verbatim (index-time preprocessing is the identity), while `search`
consults the collection at the *preprocessed* query (lower-casing plus
abbreviation expansion) in both the embedding and the text branch — the
search result depends on the main-query oracle only at
`preprocessQuery q` (and on the fallback oracle only at the raw `q`). -/
theorem c8_preprocessing_amended :
    (∀ docs : List Chunk, addTexts docs = docs.map (·.content)) ∧
    (∀ (ml eo : Bool) (q : List Char) (o o' fb fb' : List Char → Except Unit ChromaRes),
      o (preprocessQuery q) = o' (preprocessQuery q) → fb q = fb' q →
      searchModel ml eo q o fb = searchModel ml eo q o' fb') ∧
    (∀ t : List Char, indexTimePreprocess t = t) := by
  refine ⟨fun docs => rfl, ?_, fun t => rfl⟩
  intro ml eo q o o' fb fb' ho hfb
  cases ml <;> cases eo <;> simp [searchModel, ho, hfb]

/-- Witness for `c8_preprocessing_amended` at two oracles that agree on
the preprocessed query. -/
theorem c8_preprocessing_amended_witness :
    searchModel true true ("q").data
      (fun _ => .ok ⟨[], true⟩) (fun _ => .ok ⟨[], false⟩) =
      searchModel true true ("q").data
        (fun t => .ok ⟨[], t = t⟩) (fun t => .ok ⟨[], t ≠ t⟩) :=
  c8_preprocessing_amended.2.1 true true ("q").data _ _ _ _ (by simp) (by simp)

/-! ## Claim C9 -/

/-- Claim C9: with an empty retrieved context, `process_query` returns the
fixed apology string, makes no completion-service call, and performs no
classification — for every question and every completion-service
behavior. -/
theorem c9_no_context (q : List Char) (svc : Nat → CompletionOutcome) :
    processQuery q [] svc =
      { answer := apologyText, completionCalls := 0, classification := none } := rfl

/-! ## Claim C10

Each removal stage of the sanitizer only deletes characters, and the
`\[.*?\]` / `\(.*?\)` stages leave no same-line opener–closer pair behind,
so on newline-free input the stripped text contains no bracketed or
parenthesized span at all.  (Spans containing a newline are not matched by
the patterns — `.` does not cross lines — and survive.) -/

theorem subPairAux_sublist (o c : Char) :
    ∀ (fuel : Nat) (s : List Char), (subPairAux o c fuel s).Sublist s := by
  intro fuel
  induction fuel with
  | zero =>
    intro s
    cases s with
    | nil => exact List.Sublist.refl _
    | cons x rest => exact List.Sublist.refl _
  | succ fuel ih =>
    intro s
    cases s with
    | nil => exact List.Sublist.refl _
    | cons x rest =>
      simp only [subPairAux]
      split
      · split
        · exact ((ih _).trans (List.drop_sublist _ _)).trans (List.sublist_cons_self _ _)
        · exact List.Sublist.cons₂ x (ih rest)
      · exact List.Sublist.cons₂ x (ih rest)

theorem subTok2Aux_sublist (o₁ o₂ a b : Char) :
    ∀ (fuel : Nat) (s : List Char), (subTok2Aux o₁ o₂ a b fuel s).Sublist s := by
  intro fuel
  induction fuel with
  | zero =>
    intro s
    match s with
    | [] => exact List.Sublist.refl _
    | [x] => exact List.Sublist.refl _
    | x :: y :: rest => exact List.Sublist.refl _
  | succ fuel ih =>
    intro s
    match s with
    | [] => exact List.Sublist.refl _
    | [x] => exact List.Sublist.refl _
    | x :: y :: rest =>
      simp only [subTok2Aux]
      split
      · split
        · exact ((ih _).trans (List.drop_sublist _ _)).trans
            ((List.sublist_cons_self _ _).trans (List.sublist_cons_self _ _))
        · exact List.Sublist.cons₂ x (ih (y :: rest))
      · exact List.Sublist.cons₂ x (ih (y :: rest))

theorem subLatexAux_sublist :
    ∀ (fuel : Nat) (s : List Char), (subLatexAux fuel s).Sublist s := by
  intro fuel
  induction fuel with
  | zero =>
    intro s
    cases s with
    | nil => exact List.Sublist.refl _
    | cons x rest => exact List.Sublist.refl _
  | succ fuel ih =>
    intro s
    cases s with
    | nil => exact List.Sublist.refl _
    | cons x rest =>
      simp only [subLatexAux]
      split
      · split
        · exact ((ih _).trans (((List.drop_sublist _ _).trans
            ((List.drop_sublist _ _).trans (List.dropWhile_sublist _))))).trans
            (List.sublist_cons_self _ _)
        · exact List.Sublist.cons₂ x (ih rest)
      · exact List.Sublist.cons₂ x (ih rest)

theorem replaceAllAux_nil_sublist (needle : List Char) :
    ∀ (fuel : Nat) (s : List Char), (replaceAllAux needle [] fuel s).Sublist s := by
  intro fuel
  induction fuel with
  | zero =>
    intro s
    cases s with
    | nil => exact List.Sublist.refl _
    | cons x rest => exact List.Sublist.refl _
  | succ fuel ih =>
    intro s
    cases s with
    | nil => exact List.Sublist.refl _
    | cons x rest =>
      simp only [replaceAllAux]
      split
      · rw [List.nil_append]
        exact ((ih _).trans (List.drop_sublist _ _)).trans (List.sublist_cons_self _ _)
      · exact List.Sublist.cons₂ x (ih rest)

theorem stripArtifacts_sublist (s : List Char) : (stripArtifacts s).Sublist s := by
  unfold stripArtifacts
  have hgen : ∀ (as : List String) (t : List Char),
      (as.foldl (fun acc a =>
        replaceAll ('(' :: a.data ++ [')']) []
          (replaceAll ('[' :: a.data ++ [']']) []
            (replaceAll ('<' :: '|' :: a.data ++ ['|', '>']) [] acc))) t).Sublist t := by
    intro as
    induction as with
    | nil => intro t; exact List.Sublist.refl _
    | cons a tl ih =>
      intro t
      rw [List.foldl_cons]
      exact (ih _).trans ((replaceAllAux_nil_sublist _ _ _).trans
        ((replaceAllAux_nil_sublist _ _ _).trans (replaceAllAux_nil_sublist _ _ _)))
  exact hgen artifactNames s

theorem findCloserIdx_eq_none_not_mem {b : Char} :
    ∀ {l : List Char}, findCloserIdx b l = none → '\n' ∉ l → b ∉ l := by
  intro l
  induction l with
  | nil => intro _ _; simp
  | cons c rest ih =>
    intro hn hnl
    simp only [findCloserIdx] at hn
    split at hn
    · rename_i hc
      subst hc
      exact absurd (List.mem_cons_self _ _) hnl
    · split at hn
      · simp at hn
      · rename_i hcn hcb
        rw [Option.map_eq_none'] at hn
        intro hmem
        rcases List.mem_cons.mp hmem with h | h
        · exact hcb h.symm
        · exact ih hn (fun hx => hnl (List.mem_cons_of_mem _ hx)) h

theorem findCloserIdx_isSome_mem {b : Char} :
    ∀ {l : List Char}, (findCloserIdx b l).isSome = true → b ∈ l := by
  intro l
  induction l with
  | nil => intro h; simp [findCloserIdx] at h
  | cons c rest ih =>
    intro h
    simp only [findCloserIdx] at h
    split at h
    · simp at h
    · split at h
      · rename_i _ hcb
        exact List.mem_cons.mpr (Or.inl hcb.symm)
      · cases hfc : findCloserIdx b rest with
        | none => rw [hfc] at h; simp at h
        | some j => exact List.mem_cons_of_mem _ (ih (by rw [hfc]; rfl))

theorem subPairAux_no_span (o c : Char) :
    ∀ (fuel : Nat) (s : List Char), '\n' ∉ s → s.length ≤ fuel →
      ¬ ([o, c].Sublist (subPairAux o c fuel s)) := by
  intro fuel
  induction fuel with
  | zero =>
    intro s hnl hlen
    have hs : s = [] := List.eq_nil_of_length_eq_zero (Nat.le_zero.mp hlen)
    subst hs
    simp [subPairAux]
  | succ fuel ih =>
    intro s hnl hlen
    cases s with
    | nil => simp [subPairAux]
    | cons x rest =>
      have hnlr : '\n' ∉ rest := fun h => hnl (List.mem_cons_of_mem _ h)
      have hlenr : rest.length ≤ fuel := by
        simp only [List.length_cons] at hlen
        omega
      simp only [subPairAux]
      split
      · split
        · rename_i hx j hfc
          exact ih _ (fun h => hnlr ((List.drop_sublist _ _).subset h))
            (le_trans (List.drop_sublist _ _).length_le hlenr)
        · rename_i hx hfc
          intro hsub
          have hcnot : c ∉ rest := findCloserIdx_eq_none_not_mem hfc hnlr
          cases hsub with
          | cons _ h' => exact ih rest hnlr hlenr h'
          | cons₂ _ h' =>
            exact hcnot ((subPairAux_sublist o c fuel rest).subset
              (List.singleton_sublist.mp h'))
      · rename_i hx
        intro hsub
        cases hsub with
        | cons _ h' => exact ih rest hnlr hlenr h'
        | cons₂ _ _ => exact hx rfl

theorem hasSpanPattern_eq_false {o c : Char} {t : List Char}
    (h : ¬ ([o, c].Sublist t)) : hasSpanPattern o c t = false := by
  by_contra hx
  simp only [Bool.not_eq_false] at hx
  unfold hasSpanPattern at hx
  rw [List.any_eq_true] at hx
  obtain ⟨u, hu, hm⟩ := hx
  rw [List.mem_tails] at hu
  match u, hm with
  | x :: rest, hm =>
    simp only [Bool.and_eq_true, decide_eq_true_eq] at hm
    obtain ⟨hx', hsome⟩ := hm
    have hc : c ∈ rest := findCloserIdx_isSome_mem hsome
    have hsub : [o, c].Sublist (x :: rest) := by
      rw [hx']
      exact List.Sublist.cons₂ _ (List.singleton_sublist.mpr hc)
    exact h (hsub.trans hu.sublist)

theorem removeSpecialTokens_no_span (s : List Char) (hnl : '\n' ∉ s) :
    hasSpanPattern '[' ']' (removeSpecialTokens s) = false ∧
    hasSpanPattern '(' ')' (removeSpecialTokens s) = false := by
  have h1sub : (subTok2 '<' '|' '|' '>' s).Sublist s := subTok2Aux_sublist _ _ _ _ _ _
  have hnl1 : '\n' ∉ subTok2 '<' '|' '|' '>' s := fun h => hnl (h1sub.subset h)
  have hb2 : ¬ (['[', ']'].Sublist (subPair '[' ']' (subTok2 '<' '|' '|' '>' s))) :=
    subPairAux_no_span '[' ']' _ _ hnl1 le_rfl
  have h2sub : (subPair '[' ']' (subTok2 '<' '|' '|' '>' s)).Sublist
      (subTok2 '<' '|' '|' '>' s) := subPairAux_sublist _ _ _ _
  have hnl2 : '\n' ∉ subPair '[' ']' (subTok2 '<' '|' '|' '>' s) :=
    fun h => hnl1 (h2sub.subset h)
  have hp3 : ¬ (['(', ')'].Sublist (subPair '(' ')'
      (subPair '[' ']' (subTok2 '<' '|' '|' '>' s)))) :=
    subPairAux_no_span '(' ')' _ _ hnl2 le_rfl
  have h3sub : (subPair '(' ')' (subPair '[' ']' (subTok2 '<' '|' '|' '>' s))).Sublist
      (subPair '[' ']' (subTok2 '<' '|' '|' '>' s)) := subPairAux_sublist _ _ _ _
  have hb3 : ¬ (['[', ']'].Sublist (subPair '(' ')'
      (subPair '[' ']' (subTok2 '<' '|' '|' '>' s)))) :=
    fun h => hb2 (h.trans h3sub)
  have hrest : (removeSpecialTokens s).Sublist
      (subPair '(' ')' (subPair '[' ']' (subTok2 '<' '|' '|' '>' s))) := by
    unfold removeSpecialTokens
    exact (stripChars_sublist _).trans ((stripArtifacts_sublist _).trans
      ((subLatexAux_sublist _ _).trans (subTok2Aux_sublist _ _ _ _ _ _)))
  exact ⟨hasSpanPattern_eq_false (fun h => hb3 (h.trans hrest)),
    hasSpanPattern_eq_false (fun h => hp3 (h.trans hrest))⟩

/-- Claim C10, counterexample: the claim's "no sanitized answer contains a
bracketed or parenthesized span" is false — the removal patterns' `.`
does not match a newline, so a bracketed span containing a line break
survives token stripping, and the later whitespace collapse rejoins it
into a single-line `\[.*?\]` span in the final sanitized answer. -/
theorem c10_counterexample :
    formatResponse ("x [a\nb] y").data = ("X [a b] y").data ∧
    hasSpanPattern '[' ']' (formatResponse ("x [a\nb] y").data) = true := by
  exact ⟨by decide, by decide⟩

/-- Claim C10 (amended): the token-stripping stage deletes every
*single-line* bracketed and parenthesized substring (every match of
`\[.*?\]` and `\(.*?\)`), not only known model artifacts — e.g. the
citation `[1]` and the aside `(see Section 2)` are removed — and on
newline-free input the stripped text contains no bracketed or
parenthesized span at all; spans containing a newline, however, are not
matched and can persist into the sanitized answer. -/
theorem c10_token_stripping_amended :
    removeSpecialTokens ("cite [1] here (see Section 2).").data = ("cite  here .").data ∧
    (∀ s : List Char, '\n' ∉ s →
      hasSpanPattern '[' ']' (removeSpecialTokens s) = false ∧
      hasSpanPattern '(' ')' (removeSpecialTokens s) = false) :=
  ⟨by decide, removeSpecialTokens_no_span⟩

/-- Witness for `c10_token_stripping_amended` at a concrete newline-free
input. -/
theorem c10_token_stripping_amended_witness :
    hasSpanPattern '[' ']'
      (removeSpecialTokens ("cite [1] here (see Section 2).").data) = false ∧
    hasSpanPattern '(' ')'
      (removeSpecialTokens ("cite [1] here (see Section 2).").data) = false :=
  c10_token_stripping_amended.2 ("cite [1] here (see Section 2).").data (by decide)

end DocQA
